import Mathlib

/-!
Verification of the `hasher` content-integrity toolkit.

The Rust sources are shallowly embedded: the multi-digest streaming engine
(`src/lib.rs`, `Hasher`), the copy engine's destination naming
(`src/commands/copy.rs`, `get_final_dest`), the compression-aware ingest
pipeline's hash-both route (`src/output.rs`, `process_single_file`; and
`src/commands/copy.rs`, `_hash_compressed_file`), and the record store
(`src/database.rs`, `insert_single_hash` / `get_file_hashes`).

Machine integers are modelled as `Nat` with explicit reductions mod 2^32
where the code works on `u32`.  Incremental digest state is modelled by the
list of bytes absorbed so far; finalization applies a pure function of that
list, which is how every `DynDigest` implementation behaves.  The concrete
CRC-32 (IEEE, reflected, as the `crc32fast` crate computes it) and SHA-256
(FIPS 180-4, as the `sha2` crate computes it) are implemented in full so the
spec's literal test vectors can be checked.
-/

/-- IEEE CRC-32 single bit step: shift right, conditionally xor the
reflected polynomial 0xEDB88320 (the update rule of `crc32fast`). -/
def crc32Round (c : Nat) : Nat :=
  if c % 2 = 1 then (c / 2) ^^^ 0xEDB88320 else c / 2

/-- CRC-32 absorption of one byte: xor it into the low bits of the running
state and run eight bit steps. -/
def crc32Byte (c b : Nat) : Nat :=
  crc32Round (crc32Round (crc32Round (crc32Round
    (crc32Round (crc32Round (crc32Round (crc32Round (c ^^^ b % 256))))))))

/-- CRC-32 of a byte sequence: initial state 0xFFFFFFFF, absorb all bytes,
final xor with 0xFFFFFFFF.  Models `crc32fast::Hasher` as a pure function of
the absorbed bytes. -/
def crc32Bytes (data : List Nat) : Nat :=
  (data.foldl crc32Byte 0xFFFFFFFF) ^^^ 0xFFFFFFFF

/-- Little-endian four-byte encoding of a 32-bit value, as produced by
`u32::to_le_bytes` in `Hasher::finalize_hashes` (src/lib.rs). -/
def toLeBytes32 (n : Nat) : List Nat :=
  [n % 256, n / 256 % 256, n / 65536 % 256, n / 16777216 % 256]

/-- 32-bit right rotation. -/
def rotr32 (k n : Nat) : Nat :=
  ((n >>> k) ||| (n <<< (32 - k))) % 4294967296

/-- 32-bit addition. -/
def add32 (a b : Nat) : Nat := (a + b) % 4294967296

/-- SHA-256 round constants. -/
def sha256K : List Nat :=
  [1116352408, 1899447441, 3049323471, 3921009573, 961987163,
   1508970993, 2453635748, 2870763221, 3624381080, 310598401,
   607225278, 1426881987, 1925078388, 2162078206, 2614888103,
   3248222580, 3835390401, 4022224774, 264347078, 604807628,
   770255983, 1249150122, 1555081692, 1996064986, 2554220882,
   2821834349, 2952996808, 3210313671, 3336571891, 3584528711,
   113926993, 338241895, 666307205, 773529912, 1294757372,
   1396182291, 1695183700, 1986661051, 2177026350, 2456956037,
   2730485921, 2820302411, 3259730800, 3345764771, 3516065817,
   3600352804, 4094571909, 275423344, 430227734, 506948616,
   659060556, 883997877, 958139571, 1322822218, 1537002063,
   1747873779, 1955562222, 2024104815, 2227730452, 2361852424,
   2428436474, 2756734187, 3204031479, 3329325298]

/-- SHA-256 working state (eight 32-bit words). -/
structure Sha256St where
  a : Nat
  b : Nat
  c : Nat
  d : Nat
  e : Nat
  f : Nat
  g : Nat
  h : Nat
deriving Repr, DecidableEq

/-- SHA-256 initial hash value. -/
def sha256Init : Sha256St :=
  ⟨1779033703, 3144134277, 1013904242, 2773480762,
   1359893119, 2600822924, 528734635, 1541459225⟩

/-- One SHA-256 compression round with round key plus schedule word `kw`. -/
def sha256Round (s : Sha256St) (kw : Nat) : Sha256St :=
  let s1 := (rotr32 6 s.e) ^^^ (rotr32 11 s.e) ^^^ (rotr32 25 s.e)
  let ch := (s.e &&& s.f) ^^^ ((s.e ^^^ 4294967295) &&& s.g)
  let t1 := (s.h + s1 + ch + kw) % 4294967296
  let s0 := (rotr32 2 s.a) ^^^ (rotr32 13 s.a) ^^^ (rotr32 22 s.a)
  let mj := (s.a &&& s.b) ^^^ (s.a &&& s.c) ^^^ (s.b &&& s.c)
  let t2 := (s0 + mj) % 4294967296
  ⟨(t1 + t2) % 4294967296, s.a, s.b, s.c,
   (s.d + t1) % 4294967296, s.e, s.f, s.g⟩

/-- Message-schedule extension: append one word derived from the words at
offsets -2, -7, -15, -16, repeated `n` times. -/
def sha256Extend : Nat → List Nat → List Nat
  | 0, w => w
  | n + 1, w =>
    let len := w.length
    let x15 := w.getD (len - 15) 0
    let x2 := w.getD (len - 2) 0
    let s0 := (rotr32 7 x15) ^^^ (rotr32 18 x15) ^^^ (x15 >>> 3)
    let s1 := (rotr32 17 x2) ^^^ (rotr32 19 x2) ^^^ (x2 >>> 10)
    sha256Extend n
      (w ++ [(w.getD (len - 16) 0 + s0 + w.getD (len - 7) 0 + s1) % 4294967296])

/-- Big-endian packing of bytes into 32-bit words. -/
def toWordsBE : List Nat → List Nat
  | a :: b :: c :: d :: rest =>
    (a * 16777216 + b * 65536 + c * 256 + d) :: toWordsBE rest
  | _ => []

/-- Big-endian eight-byte encoding of the 64-bit message bit length. -/
def beBytes8 (n : Nat) : List Nat :=
  [n / 72057594037927936 % 256, n / 281474976710656 % 256,
   n / 1099511627776 % 256, n / 4294967296 % 256,
   n / 16777216 % 256, n / 65536 % 256, n / 256 % 256, n % 256]

/-- SHA-256 padding: 0x80, zeros to 56 mod 64, then the bit length. -/
def sha256Pad (msg : List Nat) : List Nat :=
  msg ++ 0x80 :: List.replicate ((119 - msg.length % 64) % 64) 0
    ++ beBytes8 (msg.length * 8)

/-- Componentwise 32-bit addition of two SHA-256 states. -/
def sha256Add (s t : Sha256St) : Sha256St :=
  ⟨add32 s.a t.a, add32 s.b t.b, add32 s.c t.c, add32 s.d t.d,
   add32 s.e t.e, add32 s.f t.f, add32 s.g t.g, add32 s.h t.h⟩

/-- Process `n` sixteen-word blocks of the padded message. -/
def sha256Blocks : Nat → List Nat → Sha256St → Sha256St
  | 0, _, s => s
  | n + 1, ws, s =>
    let sched := sha256Extend 48 (ws.take 16)
    let s' := (sha256K.zip sched).foldl
      (fun st p => sha256Round st ((p.1 + p.2) % 4294967296)) s
    sha256Blocks n (ws.drop 16) (sha256Add s s')

/-- Big-endian four-byte encoding of a 32-bit word. -/
def beBytes4 (n : Nat) : List Nat :=
  [n / 16777216 % 256, n / 65536 % 256, n / 256 % 256, n % 256]

/-- SHA-256 digest of a byte sequence, as 32 bytes.  Models the external
`sha2::Sha256` digest (FIPS 180-4) used by the hasher. -/
def sha256Bytes (msg : List Nat) : List Nat :=
  let ws := toWordsBE (sha256Pad msg)
  let s := sha256Blocks (ws.length / 16) ws sha256Init
  beBytes4 s.a ++ beBytes4 s.b ++ beBytes4 s.c ++ beBytes4 s.d
    ++ beBytes4 s.e ++ beBytes4 s.f ++ beBytes4 s.g ++ beBytes4 s.h

/-- The digest configuration of src/lib.rs (`HashConfig`): one boolean per
algorithm of the closed set, all defaulting to `false`. -/
structure HashConfig where
  crc32 : Bool := false
  md2 : Bool := false
  md4 : Bool := false
  md5 : Bool := false
  sha1 : Bool := false
  sha224 : Bool := false
  sha256 : Bool := false
  sha384 : Bool := false
  sha512 : Bool := false
  sha3_224 : Bool := false
  sha3_256 : Bool := false
  sha3_384 : Bool := false
  sha3_512 : Bool := false
  keccak224 : Bool := false
  keccak256 : Bool := false
  keccak384 : Bool := false
  keccak512 : Bool := false
  blake2s256 : Bool := false
  blake2b512 : Bool := false
  belt_hash : Bool := false
  whirlpool : Bool := false
  tiger : Bool := false
  tiger2 : Bool := false
  streebog256 : Bool := false
  streebog512 : Bool := false
  ripemd128 : Bool := false
  ripemd160 : Bool := false
  ripemd256 : Bool := false
  ripemd320 : Bool := false
  fsb160 : Bool := false
  fsb224 : Bool := false
  fsb256 : Bool := false
  fsb384 : Bool := false
  fsb512 : Bool := false
  sm3 : Bool := false
  gost94_cryptopro : Bool := false
  gost94_test : Bool := false
  gost94_ua : Bool := false
  gost94_s2015 : Bool := false
  groestl224 : Bool := false
  groestl256 : Bool := false
  groestl384 : Bool := false
  groestl512 : Bool := false
  shabal192 : Bool := false
  shabal224 : Bool := false
  shabal256 : Bool := false
  shabal384 : Bool := false
  shabal512 : Bool := false
deriving Repr, DecidableEq

/-- The registry: the `init_hash!` invocation in `Hasher::new` (src/lib.rs),
in source order — each variable-output algorithm name paired with the field
that enables it.  `crc32` is carried separately by the hasher. -/
def algoFields : List (String × (HashConfig → Bool)) :=
  [("md2", HashConfig.md2), ("md4", HashConfig.md4), ("md5", HashConfig.md5),
   ("sha1", HashConfig.sha1), ("sha224", HashConfig.sha224),
   ("sha256", HashConfig.sha256), ("sha384", HashConfig.sha384),
   ("sha512", HashConfig.sha512), ("sha3_224", HashConfig.sha3_224),
   ("sha3_256", HashConfig.sha3_256), ("sha3_384", HashConfig.sha3_384),
   ("sha3_512", HashConfig.sha3_512), ("keccak224", HashConfig.keccak224),
   ("keccak256", HashConfig.keccak256), ("keccak384", HashConfig.keccak384),
   ("keccak512", HashConfig.keccak512), ("blake2s256", HashConfig.blake2s256),
   ("blake2b512", HashConfig.blake2b512), ("belt_hash", HashConfig.belt_hash),
   ("whirlpool", HashConfig.whirlpool), ("tiger", HashConfig.tiger),
   ("tiger2", HashConfig.tiger2), ("streebog256", HashConfig.streebog256),
   ("streebog512", HashConfig.streebog512), ("ripemd128", HashConfig.ripemd128),
   ("ripemd160", HashConfig.ripemd160), ("ripemd256", HashConfig.ripemd256),
   ("ripemd320", HashConfig.ripemd320), ("fsb160", HashConfig.fsb160),
   ("fsb224", HashConfig.fsb224), ("fsb256", HashConfig.fsb256),
   ("fsb384", HashConfig.fsb384), ("fsb512", HashConfig.fsb512),
   ("sm3", HashConfig.sm3), ("gost94_cryptopro", HashConfig.gost94_cryptopro),
   ("gost94_test", HashConfig.gost94_test), ("gost94_ua", HashConfig.gost94_ua),
   ("gost94_s2015", HashConfig.gost94_s2015),
   ("groestl224", HashConfig.groestl224), ("groestl256", HashConfig.groestl256),
   ("groestl384", HashConfig.groestl384), ("groestl512", HashConfig.groestl512),
   ("shabal192", HashConfig.shabal192), ("shabal224", HashConfig.shabal224),
   ("shabal256", HashConfig.shabal256), ("shabal384", HashConfig.shabal384),
   ("shabal512", HashConfig.shabal512)]

/-- The identifiers of the variable-output digests enabled by a config, in
registry order: exactly the names pushed by `Hasher::new`.  Depends only on
the boolean field values of the config. -/
def initHashes (cfg : HashConfig) : List String :=
  (algoFields.filter (fun p => p.2 cfg)).map Prod.fst

/-- State of one `Hasher` (src/lib.rs): per-algorithm incremental digest
state modelled as the bytes absorbed so far, plus the optional crc32
companion state. -/
structure HasherSt where
  hashes : List (String × List Nat)
  crc32st : Option (List Nat)
deriving Repr, DecidableEq

/-- `Hasher::new(config)`: fresh digest state for every enabled algorithm in
registry order, plus a fresh crc32 state when `config.crc32` is set. -/
def hasherNew (cfg : HashConfig) : HasherSt :=
  { hashes := (initHashes cfg).map (fun n => (n, [])),
    crc32st := if cfg.crc32 then some [] else none }

/-- `Hasher::hash_buffer_sequential`: update every digest in registry order
with the chunk, then the crc32 companion. -/
def hash_buffer_sequential (st : HasherSt) (buf : List Nat) : HasherSt :=
  { hashes := st.hashes.map (fun p => (p.1, p.2 ++ buf)),
    crc32st := st.crc32st.map (· ++ buf) }

/-- One update action of the threaded path: a worker thread updating the
`i`-th variable digest, or the crc32 worker. -/
inductive UpdAct where
  | var (i : Nat)
  | crc
deriving Repr, DecidableEq

/-- Replace the `i`-th element of a list by `f` of it. -/
def modifyIdx (f : α → α) : Nat → List α → List α
  | _, [] => []
  | 0, x :: xs => f x :: xs
  | n + 1, x :: xs => x :: modifyIdx f n xs

/-- Effect of one worker of `Hasher::hash_buffer_threaded`: each thread
locks exactly one digest and absorbs the shared read-locked chunk into it. -/
def applyAct (buf : List Nat) (st : HasherSt) : UpdAct → HasherSt
  | .var i => { st with hashes := modifyIdx (fun p => (p.1, p.2 ++ buf)) i st.hashes }
  | .crc => { st with crc32st := st.crc32st.map (· ++ buf) }

/-- The multiset of worker actions `hash_buffer_threaded` spawns: one per
variable digest, plus one for crc32 when present (in spawn order). -/
def spawnActs (st : HasherSt) : List UpdAct :=
  (List.range st.hashes.length).map .var
    ++ (match st.crc32st with | some _ => [UpdAct.crc] | none => [])

/-- `Hasher::hash_buffer_threaded` under an arbitrary interleaving: the
joined result of running the spawned workers in schedule order `sched`.
Any `sched` that is a permutation of `spawnActs st` is a possible
execution, since each worker performs a single locked update. -/
def hash_buffer_threaded (buf : List Nat) (sched : List UpdAct)
    (st : HasherSt) : HasherSt :=
  sched.foldl (applyAct buf) st

/-- `CHUNK_SIZE` of src/lib.rs: 512 MiB. -/
def CHUNK_SIZE : Nat := 512 * 1024 * 1024

/-- `SEQUENTIAL_SIZE` of src/lib.rs: 32 MiB. -/
def SEQUENTIAL_SIZE : Nat := 32 * 1024 * 1024

/-- `Hasher::hash_buffer` with the sequential threshold as a parameter:
empty chunks are a no-op; chunks below the threshold are hashed
sequentially, larger ones by the threaded path (here in its canonical
spawn-order schedule; `claim3` shows every schedule agrees). -/
def hash_buffer_with (threshold : Nat) (st : HasherSt) (buf : List Nat) :
    HasherSt :=
  if buf = [] then st
  else if buf.length < threshold then hash_buffer_sequential st buf
  else hash_buffer_threaded buf (spawnActs st) st

/-- `Hasher::hash_buffer` (src/lib.rs) at the source's threshold. -/
def hash_buffer (st : HasherSt) (buf : List Nat) : HasherSt :=
  hash_buffer_with SEQUENTIAL_SIZE st buf

/-- `Hasher::finalize_hashes` (src/lib.rs): crc32 first (clone, finalize,
little-endian bytes — the clone leaves the companion state untouched), then
each variable digest's `finalize_reset` output in registry order; the
variable digest states are reset, the crc32 state is not.  `F name bytes`
models the pure finalization function of the external digest crate for
`name`. -/
def finalize_hashes (F : String → List Nat → List Nat) (st : HasherSt) :
    List (String × List Nat) × HasherSt :=
  ((match st.crc32st with
      | some acc => [("crc32", toLeBytes32 (crc32Bytes acc))]
      | none => []) ++ st.hashes.map (fun p => (p.1, F p.1 p.2)),
   { hashes := st.hashes.map (fun p => (p.1, [])), crc32st := st.crc32st })

/-- `Hasher::hash_single_buffer`: absorb then finalize (also returning the
post-finalization state for reuse analysis). -/
def hash_single_buffer (F : String → List Nat → List Nat) (st : HasherSt)
    (buf : List Nat) : List (String × List Nat) × HasherSt :=
  finalize_hashes F (hash_buffer st buf)

/-- `Hasher::hash_file` restricted to its digest action on a tamper-free
read sequence: absorb the chunks the read loop yields, in file order, then
finalize.  (`hashFileLoop` below models the full loop with metadata
probes.) -/
def hashFileChunks (F : String → List Nat → List Nat)
    (chunks : List (List Nat)) (st : HasherSt) :
    List (String × List Nat) × HasherSt :=
  finalize_hashes F (chunks.foldl hash_buffer st)

/-- Outcome of one `reader.read(&mut buffer)` call in `Hasher::hash_file`. -/
inductive ReadRes where
  | bytes (bs : List Nat)
  | interrupted
  | ioerr
deriving Repr, DecidableEq

/-- One iteration's observations in the `hash_file` read loop: the read
outcome and, for a successful non-empty read, the result of the subsequent
`path.metadata()` re-probe (`none` models a failed probe, `some t` a
successful probe observing modification time `t`). -/
structure Step where
  rd : ReadRes
  probe : Option Nat
deriving Repr, DecidableEq

/-- Errors of the streaming hasher (src/lib.rs `Error`), restricted to the
variants the read loop can produce. -/
inductive HErr where
  | io
  | fileChanged
deriving Repr, DecidableEq

/-- The read loop of `Hasher::hash_file` (src/lib.rs): a zero-byte read
breaks the loop; `Interrupted` reads are retried; other read errors abort
with `Io`.  After a successful non-empty read the metadata re-probe is
consulted — only if it succeeds (`some t`) is the modification time
compared with the initial probe `t0`, aborting with `FileChanged` on
mismatch before the chunk is hashed; a failed re-probe (`none`) is silently
skipped and the chunk is absorbed. -/
def hashFileLoop (t0 : Nat) (st : HasherSt) : List Step → Except HErr HasherSt
  | [] => .ok st
  | s :: rest =>
    match s.rd with
    | .ioerr => .error .io
    | .interrupted => hashFileLoop t0 st rest
    | .bytes [] => .ok st
    | .bytes bs =>
      match s.probe with
      | some t =>
        if t ≠ t0 then .error .fileChanged
        else hashFileLoop t0 (hash_buffer st bs) rest
      | none => hashFileLoop t0 (hash_buffer st bs) rest

/-- `Hasher::hash_file` over a read trace: run the loop, then finalize; an
aborted loop yields the error and no record. -/
def hash_file (F : String → List Nat → List Nat) (t0 : Nat) (st : HasherSt)
    (steps : List Step) : Except HErr (List (String × List Nat)) :=
  (hashFileLoop t0 st steps).map (fun st' => (finalize_hashes F st').1)

/-- A loop iteration that neither terminates the loop nor aborts it: an
interrupted read, or a non-empty read whose re-probe failed or observed the
initial modification time `t0`. -/
def stepBenign (t0 : Nat) (s : Step) : Bool :=
  match s.rd with
  | .interrupted => true
  | .ioerr => false
  | .bytes bs => bs ≠ [] && (s.probe = none || s.probe = some t0)

/-- File names are modelled as character lists (the final path component;
the directory part plays no role in the embedded operations). -/
abbrev FileName := List Char

/-- Split a file name at its last dot: `some (before, after)` when a dot
exists. -/
def rsplitDot : FileName → Option (FileName × FileName)
  | [] => none
  | c :: cs =>
    match rsplitDot cs with
    | some (b, a) => some (c :: b, a)
    | none => if c = '.' then some ([], cs) else none

/-- Rust `Path::file_stem` / `Path::extension` semantics on a file name:
no dot, a lone leading dot, or the name `".."` give the whole name as stem
and no extension; otherwise split at the last dot. -/
def fileStemExt (f : FileName) : FileName × Option FileName :=
  if f = ['.', '.'] then (f, none)
  else
    match rsplitDot f with
    | none => (f, none)
    | some (b, a) => if b = [] then (f, none) else (b, some a)

/-- Rust `Path::extension` on a file name. -/
def extOf (f : FileName) : Option FileName := (fileStemExt f).2

/-- Rust `Path::file_stem` on a file name. -/
def stemOf (f : FileName) : FileName := (fileStemExt f).1

/-- Rust `Path::with_extension`: the stem, plus a dot and the new extension
when it is non-empty (an empty extension removes the old one). -/
def withExtension (f : FileName) (e : FileName) : FileName :=
  stemOf f ++ (if e = [] then [] else '.' :: e)

/-- `CompressionAlgorithm::is_compressed_path` (src/compression.rs): the
extension equals the compressor's `".gz"` with its leading dot trimmed. -/
def is_compressed_path (f : FileName) : Bool :=
  extOf f = some ['g', 'z']

/-- Rust `str::trim_end_matches(".gz")`: repeatedly strip the suffix. -/
def stripRevGz : List Char → List Char
  | 'z' :: 'g' :: '.' :: rest => stripRevGz rest
  | l => l

/-- `trim_end_matches(".gz")` on a file-name fragment. -/
def trimEndGz (e : FileName) : FileName := (stripRevGz e.reverse).reverse

/-- `get_final_dest` (src/commands/copy.rs): with `compress`, a destination
that is not already a `.gz` path gets its extension replaced by the old
extension concatenated with `".gz"`; otherwise with `decompress`, a `.gz`
destination has that extension handled (stripped when it is exactly `gz`);
all other cases leave the destination unchanged. -/
def get_final_dest (compress decompress : Bool) (dest : FileName) : FileName :=
  if compress then
    if !is_compressed_path dest then
      withExtension dest
        ((match extOf dest with | some e => e | none => []) ++ ['.', 'g', 'z'])
    else dest
  else if decompress then
    if is_compressed_path dest then
      match extOf dest with
      | some e =>
        if e = ['g', 'z'] then withExtension dest []
        else if ['.', 'g', 'z'].isSuffixOf e then
          if trimEndGz e ≠ [] then withExtension dest (trimEndGz e) else dest
        else dest
      | none => dest
    else dest
  else dest

/-- A produced hash record: attributed path, size in bytes, and the
finalized `(algorithm, digest bytes)` list. -/
abbrev HashRecord := FileName × Nat × List (String × List Nat)

/-- The `hash_both` route of `process_single_file` (src/output.rs) for a
compressed input: hash the compressed bytes and the decompressed bytes,
each with a fresh hasher (the `process_file` closure constructs its own
`Hasher`); the compressed record keeps the input path, the decompressed
record gets `file_path.with_extension("")`. -/
def process_single_file_gz_both (F : String → List Nat → List Nat)
    (cfg : HashConfig) (p : FileName) (compData decompData : List Nat) :
    List HashRecord :=
  [(p, compData.length, (hash_single_buffer F (hasherNew cfg) compData).1),
   (withExtension p [], decompData.length,
    (hash_single_buffer F (hasherNew cfg) decompData).1)]

/-- `_hash_compressed_file` (src/commands/copy.rs): the `hash_both` route of
the copy pipeline for a compressed source.  One hasher is used for both
records: `hash_file(source)` over the on-disk compressed bytes, then
`hash_single_buffer` over the decompressed bytes on the same hasher.  Both
records are attributed to `source`. -/
def hash_compressed_file (F : String → List Nat → List Nat)
    (cfg : HashConfig) (src : FileName) (compData decompData : List Nat) :
    List HashRecord :=
  let r1 := hashFileChunks F [compData] (hasherNew cfg)
  let r2 := hash_single_buffer F r1.2 decompData
  [(src, compData.length, r1.1), (src, decompData.length, r2.1)]

/-- The digest columns of the store's table, in schema order
(src/database.rs `HASHES`): `crc32` first, then the registry order. -/
def schemaCols : List String := "crc32" :: (algoFields.map Prod.fst)

/-- One stored row: `file_path`, `file_size`, and every digest column in
schema order, `none` for SQL NULL. -/
structure DbRow where
  path : FileName
  size : Nat
  cols : List (String × Option (List Nat))
deriving Repr, DecidableEq

/-- A database: tables by name, each a row list in insertion order. -/
abbrev Db := List (String × List DbRow)

/-- Store-level errors: no matching row (`File not found in database`), or
an SQL failure such as a missing table. -/
inductive DbErr where
  | notFound
  | dbFailure
deriving Repr, DecidableEq

/-- The row materialized by the INSERT of `insert_single_hash`: bound blobs
for the digests present in the record, NULL for every other column. -/
def mkRow (p : FileName) (size : Nat) (hs : List (String × List Nat)) :
    DbRow :=
  { path := p, size := size,
    cols := schemaCols.map
      (fun c => (c, (hs.find? (fun h => h.1 = c)).map Prod.snd)) }

/-- Append a row to the named table; `none` when the table does not exist
(the INSERT would fail). -/
def dbAppend (t : String) (r : DbRow) : Db → Option Db
  | [] => none
  | (n, rows) :: rest =>
    if n = t then some ((n, rows ++ [r]) :: rest)
    else (dbAppend t r rest).map ((n, rows) :: ·)

/-- `insert_single_hash` (src/database.rs): INSERT INTO the configured
table the path, the size, and one bound blob per record digest. -/
def insert_single_hash (tableName : String) (db : Db) (p : FileName)
    (size : Nat) (hs : List (String × List Nat)) : Except DbErr Db :=
  match dbAppend tableName (mkRow p size hs) db with
  | some db' => .ok db'
  | none => .error .dbFailure

/-- `get_file_hashes` (src/database.rs): `SELECT * FROM hashes WHERE
file_path = ?` — the table name `hashes` is hard-coded — take the first
matching row, and return every non-NULL, non-empty digest column with the
stored size; `notFound` when no row matches. -/
def get_file_hashes (db : Db) (p : FileName) :
    Except DbErr (List (String × (Nat × List Nat))) :=
  match db.find? (fun t => t.1 = "hashes") with
  | none => .error .dbFailure
  | some (_, rows) =>
    match rows.find? (fun r => r.path = p) with
    | none => .error .notFound
    | some row =>
      .ok (row.cols.filterMap
        (fun c => match c.2 with
          | some bytes => if bytes ≠ [] then some (c.1, (row.size, bytes)) else none
          | none => none))


/-- Setting the digest list of a hasher state (record-update helper). -/
def setHashes (st : HasherSt) (h : List (String × List Nat)) : HasherSt :=
  { st with hashes := h }

/-- The pure finalization family of the external digest crates, concrete for
the algorithm the spec pins byte-exactly (`sha256`); the other
variable-output algorithms are not evaluated by any theorem below. -/
def stdDigest (name : String) (data : List Nat) : List Nat :=
  if name = "sha256" then sha256Bytes data else []

/-- A configuration enabling only `crc32`. -/
def cfgCrcOnly : HashConfig := { crc32 := true }

/-- A configuration enabling only `sha256`. -/
def cfgSha256Only : HashConfig := { sha256 := true }

/-- A small two-digest hasher state with the crc32 companion, used to
instantiate universally quantified theorems at a concrete input. -/
def stWit : HasherSt :=
  { hashes := [("md5", []), ("sha1", [])], crc32st := some [] }

theorem modifyIdx_append (f : α → α) (pre : List α) (x : α) (xs : List α) :
    modifyIdx f pre.length (pre ++ x :: xs) = pre ++ f x :: xs := by
  induction pre with
  | nil => rfl
  | cons p ps ih => simpa [modifyIdx] using ih

theorem modifyIdx_comm (f : α → α) :
    ∀ (l : List α) (i j : Nat),
      modifyIdx f i (modifyIdx f j l) = modifyIdx f j (modifyIdx f i l) := by
  intro l
  induction l with
  | nil => intro i j; cases i <;> cases j <;> rfl
  | cons x xs ih =>
    intro i j
    cases i with
    | zero =>
      cases j with
      | zero => rfl
      | succ j => simp [modifyIdx]
    | succ i =>
      cases j with
      | zero => simp [modifyIdx]
      | succ j => simp [modifyIdx, ih]

theorem applyAct_comm (buf : List Nat) (st : HasherSt) (a b : UpdAct) :
    applyAct buf (applyAct buf st a) b = applyAct buf (applyAct buf st b) a := by
  cases a <;> cases b <;> simp [applyAct, modifyIdx_comm]

theorem foldl_modifyIdx_range (f : α → α) :
    ∀ (l pre : List α),
      (List.range' pre.length l.length).foldl
          (fun acc i => modifyIdx f i acc) (pre ++ l)
        = pre ++ l.map f := by
  intro l
  induction l with
  | nil => intro pre; simp
  | cons x xs ih =>
    intro pre
    rw [List.length_cons, List.range'_succ, List.foldl_cons, modifyIdx_append]
    have h := ih (pre ++ [f x])
    simp only [List.append_assoc, List.singleton_append, List.length_append,
      List.length_cons, List.length_nil] at h
    simpa using h

theorem foldl_applyAct_vars (buf : List Nat) :
    ∀ (idxs : List Nat) (st : HasherSt),
      (idxs.map UpdAct.var).foldl (applyAct buf) st
        = setHashes st (idxs.foldl
            (fun acc i => modifyIdx (fun p => (p.1, p.2 ++ buf)) i acc) st.hashes) := by
  intro idxs
  induction idxs with
  | nil => intro st; rfl
  | cons i is ih =>
    intro st
    simp only [List.map_cons, List.foldl_cons]
    rw [ih]
    rfl

theorem hash_buffer_threaded_spawn (buf : List Nat) (st : HasherSt) :
    hash_buffer_threaded buf (spawnActs st) st = hash_buffer_sequential st buf := by
  unfold hash_buffer_threaded spawnActs
  rw [List.foldl_append, foldl_applyAct_vars]
  have hvars := foldl_modifyIdx_range (fun p : String × List Nat => (p.1, p.2 ++ buf))
    st.hashes []
  simp only [List.nil_append, List.length_nil] at hvars
  rw [← List.range_eq_range'] at hvars
  rw [hvars]
  cases hc : st.crc32st with
  | none =>
    simp [setHashes, hash_buffer_sequential, hc]
  | some acc =>
    simp [setHashes, applyAct, hash_buffer_sequential, hc]

theorem hash_buffer_threaded_perm (buf : List Nat) (st : HasherSt)
    (sched : List UpdAct) (hp : sched.Perm (spawnActs st)) :
    hash_buffer_threaded buf sched st = hash_buffer_sequential st buf := by
  unfold hash_buffer_threaded
  rw [hp.foldl_eq' (fun x _ y _ z => applyAct_comm buf z x y) st]
  exact hash_buffer_threaded_spawn buf st

theorem map_append_nil_id :
    ∀ (l : List (String × List Nat)), l.map (fun p => (p.1, p.2 ++ ([] : List Nat))) = l := by
  intro l
  induction l with
  | nil => rfl
  | cons x xs ih => simp [ih]

theorem seq_nil (st : HasherSt) : hash_buffer_sequential st [] = st := by
  cases st with
  | mk hs c =>
    simp only [hash_buffer_sequential, map_append_nil_id]
    cases c <;> simp

theorem hash_buffer_with_eq_seq (t : Nat) (st : HasherSt) (buf : List Nat) :
    hash_buffer_with t st buf = hash_buffer_sequential st buf := by
  unfold hash_buffer_with
  by_cases he : buf = []
  · subst he; simp [seq_nil]
  · simp only [he, if_false]
    by_cases hl : buf.length < t
    · simp [hl]
    · simp [hl, hash_buffer_threaded_spawn]

theorem seq_seq (st : HasherSt) (a b : List Nat) :
    hash_buffer_sequential (hash_buffer_sequential st a) b
      = hash_buffer_sequential st (a ++ b) := by
  cases st with
  | mk hs c =>
    simp only [hash_buffer_sequential, List.map_map, HasherSt.mk.injEq]
    refine ⟨?_, ?_⟩
    · apply List.map_congr_left
      intro p _
      simp
    · cases c <;> simp

theorem foldl_hash_buffer (chunks : List (List Nat)) :
    ∀ (st : HasherSt),
      chunks.foldl hash_buffer st = hash_buffer_sequential st chunks.flatten := by
  induction chunks with
  | nil => intro st; simp [seq_nil]
  | cons c cs ih =>
    intro st
    simp only [List.foldl_cons, List.flatten_cons]
    rw [ih, hash_buffer, hash_buffer_with_eq_seq, seq_seq]

theorem absorb_fresh (cfg : HashConfig) (bs : List (List Nat)) :
    bs.foldl hash_buffer (hasherNew cfg)
      = { hashes := (initHashes cfg).map (fun n => (n, bs.flatten)),
          crc32st := if cfg.crc32 then some bs.flatten else none } := by
  rw [foldl_hash_buffer]
  unfold hasherNew hash_buffer_sequential
  cases hc : cfg.crc32 <;> simp [List.map_map, Function.comp_def]

/-- C1: For every enabled configuration, finalization returns the list of
(algorithm, digest bytes) with `crc32` placed first when it is enabled, its
4 bytes being the little-endian encoding of the CRC-32 value, followed by
the variable-output digests in the registry's deterministic order — the
canonical `algoFields` order filtered by the enabled set, independent of how
the config was built.  Stated for any hasher state reached from
`Hasher::new(cfg)` by any sequence of absorbed buffers `bs` and any digest
family `F`. -/
theorem claim1_finalize_order (F : String → List Nat → List Nat)
    (cfg : HashConfig) (bs : List (List Nat)) :
    (finalize_hashes F (bs.foldl hash_buffer (hasherNew cfg))).1
      = (if cfg.crc32
          then [("crc32", toLeBytes32 (crc32Bytes bs.flatten))] else [])
        ++ (initHashes cfg).map (fun n => (n, F n bs.flatten)) := by
  rw [absorb_fresh]
  unfold finalize_hashes
  cases hc : cfg.crc32 <;> simp [List.map_map, Function.comp_def]

/-- C3: The sequential and threaded dispatch paths are equivalent — the
threaded path under every possible worker interleaving (any permutation of
the spawned per-digest update actions) produces exactly the state of the
sequential path — and consequently the value of the `SEQUENTIAL_SIZE`
threshold (including forcing it to `0` or beyond any buffer length) never
changes the result of `hash_buffer`. -/
theorem claim3_dispatch_equivalence :
    (∀ (buf : List Nat) (st : HasherSt) (sched : List UpdAct),
        sched.Perm (spawnActs st) →
        hash_buffer_threaded buf sched st = hash_buffer_sequential st buf)
    ∧ (∀ (t₁ t₂ : Nat) (st : HasherSt) (buf : List Nat),
        hash_buffer_with t₁ st buf = hash_buffer_with t₂ st buf) := by
  refine ⟨fun buf st sched hp => hash_buffer_threaded_perm buf st sched hp,
          fun t₁ t₂ st buf => ?_⟩
  rw [hash_buffer_with_eq_seq, hash_buffer_with_eq_seq]

/-- Witness for C3 at a concrete two-digest state, a reversed schedule and
the thresholds 0 and 100. -/
theorem claim3_witness :
    hash_buffer_threaded [7] [UpdAct.crc, UpdAct.var 1, UpdAct.var 0] stWit
      = hash_buffer_sequential stWit [7]
    ∧ hash_buffer_with 0 stWit [7] = hash_buffer_with 100 stWit [7] :=
  ⟨claim3_dispatch_equivalence.1 [7] stWit [UpdAct.crc, UpdAct.var 1, UpdAct.var 0]
      (by decide),
   claim3_dispatch_equivalence.2 0 100 stWit [7]⟩

theorem hashFileLoop_ok_of_probe (t0 : Nat) (probe : Option Nat)
    (hprobe : probe = none ∨ probe = some t0) :
    ∀ (chunks : List (List Nat)) (st : HasherSt), (∀ c ∈ chunks, c ≠ []) →
      hashFileLoop t0 st (chunks.map (fun c => ⟨ReadRes.bytes c, probe⟩))
        = .ok (chunks.foldl hash_buffer st) := by
  intro chunks
  induction chunks with
  | nil => intro st _; rfl
  | cons c cs ih =>
    intro st hne
    have hc : c ≠ [] := hne c (List.mem_cons_self c cs)
    have hrest : ∀ x ∈ cs, x ≠ [] := fun x hx => hne x (List.mem_cons_of_mem c hx)
    cases c with
    | nil => exact absurd rfl hc
    | cons b bs =>
      cases hprobe with
      | inl h => subst h; simpa [hashFileLoop] using ih (hash_buffer st (b :: bs)) hrest
      | inr h => subst h; simpa [hashFileLoop] using ih (hash_buffer st (b :: bs)) hrest

/-- C4: Chunked file hashing agrees with one-shot hashing: on a tamper-free
read trace that yields the file's bytes as any sequence of non-empty chunks
(each read at most `CHUNK_SIZE`, the re-probe always observing the initial
mtime `t0`), `hash_file` returns exactly the record that
`hash_single_buffer` produces on the concatenated bytes, from the same
starting state and for every digest family and enabled algorithm set. -/
theorem claim4_chunked_eq_single (F : String → List Nat → List Nat)
    (t0 : Nat) (st : HasherSt) (chunks : List (List Nat))
    (hne : ∀ c ∈ chunks, c ≠ []) :
    hash_file F t0 st (chunks.map (fun c => ⟨ReadRes.bytes c, some t0⟩))
      = .ok (hash_single_buffer F st chunks.flatten).1 := by
  unfold hash_file
  rw [hashFileLoop_ok_of_probe t0 (some t0) (Or.inr rfl) chunks st hne]
  unfold hash_single_buffer
  rw [foldl_hash_buffer, hash_buffer, hash_buffer_with_eq_seq]
  rfl

/-- Witness for C4: a two-chunk trace over the bytes `[1, 2, 3]`. -/
theorem claim4_witness :
    hash_file stdDigest 5 (hasherNew cfgCrcOnly)
        [⟨ReadRes.bytes [1], some 5⟩, ⟨ReadRes.bytes [2, 3], some 5⟩]
      = .ok (hash_single_buffer stdDigest (hasherNew cfgCrcOnly) [1, 2, 3]).1 :=
  claim4_chunked_eq_single stdDigest 5 (hasherNew cfgCrcOnly) [[1], [2, 3]]
    (by decide)

/-- C5: `hash_file` returns `FileChanged` and no record whenever the loop
reaches a successful non-empty read whose metadata re-probe observes a
modification time `t` different from the initial probe `t0`, after any
prefix of benign iterations (interrupted reads, or reads whose re-probe
failed or agreed with `t0`); the loop aborts there, so finalization is
never reached and no partial result is produced (the `Except.error` carries
no record). -/
theorem claim5_file_changed (F : String → List Nat → List Nat)
    (t0 t : Nat) (st : HasherSt) (pre post : List Step) (bs : List Nat)
    (hbs : bs ≠ []) (ht : t ≠ t0) (hpre : pre.all (stepBenign t0) = true) :
    hash_file F t0 st (pre ++ ⟨ReadRes.bytes bs, some t⟩ :: post)
      = .error .fileChanged := by
  suffices h : ∀ (pre : List Step) (st : HasherSt),
      pre.all (stepBenign t0) = true →
      hashFileLoop t0 st (pre ++ ⟨ReadRes.bytes bs, some t⟩ :: post)
        = .error .fileChanged by
    unfold hash_file
    rw [h pre st hpre]
    rfl
  intro pre
  induction pre with
  | nil =>
    intro st _
    cases bs with
    | nil => exact absurd rfl hbs
    | cons b bs' => simp [hashFileLoop, ht]
  | cons s ss ih =>
    intro st hall
    rw [List.all_cons, Bool.and_eq_true] at hall
    obtain ⟨hs, hss⟩ := hall
    obtain ⟨rd, probe⟩ := s
    cases rd with
    | ioerr => simp [stepBenign] at hs
    | interrupted => simpa [hashFileLoop] using ih st hss
    | bytes cb =>
      simp only [stepBenign, Bool.and_eq_true, decide_eq_true_eq,
        Bool.or_eq_true] at hs
      obtain ⟨hcb, hp⟩ := hs
      cases cb with
      | nil => exact absurd rfl hcb
      | cons x xs =>
        cases hp with
        | inl h =>
          subst h
          simpa [hashFileLoop] using ih (hash_buffer st (x :: xs)) hss
        | inr h =>
          subst h
          simpa [hashFileLoop] using ih (hash_buffer st (x :: xs)) hss

/-- Witness for C5: a trace with an interrupted read and a benign chunk
before a read whose re-probe observes mtime 3 instead of the initial 1. -/
theorem claim5_witness :
    hash_file stdDigest 1 (hasherNew cfgCrcOnly)
        ([⟨ReadRes.interrupted, none⟩, ⟨ReadRes.bytes [5], none⟩]
          ++ ⟨ReadRes.bytes [7], some 3⟩ :: [])
      = .error .fileChanged :=
  claim5_file_changed stdDigest 1 3 (hasherNew cfgCrcOnly)
    [⟨ReadRes.interrupted, none⟩, ⟨ReadRes.bytes [5], none⟩] [] [7]
    (by decide) (by decide) (by decide)

theorem hashFileLoop_fileChanged_probe (t0 : Nat) :
    ∀ (steps : List Step) (st : HasherSt),
      hashFileLoop t0 st steps = .error .fileChanged →
      ∃ s ∈ steps, ∃ t, s.probe = some t ∧ t ≠ t0 := by
  intro steps
  induction steps with
  | nil => intro st h; simp [hashFileLoop] at h
  | cons s ss ih =>
    intro st h
    obtain ⟨rd, probe⟩ := s
    cases rd with
    | ioerr => simp [hashFileLoop] at h
    | interrupted =>
      obtain ⟨s', hmem, hs'⟩ := ih st (by simpa [hashFileLoop] using h)
      exact ⟨s', List.mem_cons_of_mem _ hmem, hs'⟩
    | bytes bs =>
      cases bs with
      | nil => simp [hashFileLoop] at h
      | cons b bs' =>
        cases probe with
        | none =>
          obtain ⟨s', hmem, hs'⟩ :=
            ih (hash_buffer st (b :: bs')) (by simpa [hashFileLoop] using h)
          exact ⟨s', List.mem_cons_of_mem _ hmem, hs'⟩
        | some t =>
          by_cases hne : t = t0
          · subst hne
            obtain ⟨s', hmem, hs'⟩ :=
              ih (hash_buffer st (b :: bs')) (by simpa [hashFileLoop] using h)
            exact ⟨s', List.mem_cons_of_mem _ hmem, hs'⟩
          · exact ⟨⟨ReadRes.bytes (b :: bs'), some t⟩, List.mem_cons_self _ _,
              t, rfl, hne⟩

/-- C10: When the post-read metadata re-probe fails, the tamper check is
silently skipped and hashing continues with the bytes already read — a trace
all of whose re-probes fail still succeeds and returns exactly the one-shot
record of the bytes read — and `FileChanged` is raised only when some
re-probe succeeds and observes a modification time different from the
initial one. -/
theorem claim10_failed_probe_skipped :
    (∀ (F : String → List Nat → List Nat) (t0 : Nat) (st : HasherSt)
        (chunks : List (List Nat)), (∀ c ∈ chunks, c ≠ []) →
        hash_file F t0 st (chunks.map (fun c => ⟨ReadRes.bytes c, none⟩))
          = .ok (hash_single_buffer F st chunks.flatten).1)
    ∧ (∀ (F : String → List Nat → List Nat) (t0 : Nat) (st : HasherSt)
        (steps : List Step),
        hash_file F t0 st steps = .error .fileChanged →
        ∃ s ∈ steps, ∃ t, s.probe = some t ∧ t ≠ t0) := by
  constructor
  · intro F t0 st chunks hne
    unfold hash_file
    rw [hashFileLoop_ok_of_probe t0 none (Or.inl rfl) chunks st hne]
    unfold hash_single_buffer
    rw [foldl_hash_buffer, hash_buffer, hash_buffer_with_eq_seq]
    rfl
  · intro F t0 st steps h
    apply hashFileLoop_fileChanged_probe t0 steps st
    unfold hash_file at h
    cases hl : hashFileLoop t0 st steps with
    | ok st' => rw [hl] at h; simp [Except.map] at h
    | error e =>
      rw [hl] at h
      simp only [Except.map] at h
      cases h
      rfl

/-- Witness for C10: a two-chunk trace whose re-probes all fail succeeds
with the one-shot record, and a trace that produces `FileChanged` contains
a successful re-probe observing a different mtime. -/
theorem claim10_witness :
    hash_file stdDigest 1 (hasherNew cfgCrcOnly)
        [⟨ReadRes.bytes [9], none⟩, ⟨ReadRes.bytes [8], none⟩]
      = .ok (hash_single_buffer stdDigest (hasherNew cfgCrcOnly) [9, 8]).1
    ∧ ∃ s ∈ ([⟨ReadRes.bytes [1], some 99⟩, ⟨ReadRes.bytes [2], some 1⟩] :
          List Step), ∃ t, s.probe = some t ∧ t ≠ 1 :=
  ⟨claim10_failed_probe_skipped.1 stdDigest 1 (hasherNew cfgCrcOnly)
      [[9], [8]] (by decide),
   claim10_failed_probe_skipped.2 stdDigest 1 (hasherNew cfgCrcOnly)
      [⟨ReadRes.bytes [1], some 99⟩, ⟨ReadRes.bytes [2], some 1⟩] rfl⟩

/-- C8: `hash_buffer` on the empty slice is a no-op on all digest states
(for every state and every threshold choice this is the early return of
`Hasher::hash_buffer`), and `hash_single_buffer` of the empty buffer yields
each algorithm's empty-input digest: with only `sha256` enabled, the bytes
e3b0c44298fc1c149afbf4c8996fb92427ae41e4649b934ca495991b7852b855; with only
`crc32` enabled, four zero bytes. -/
theorem claim8_empty_buffer :
    (∀ st : HasherSt, hash_buffer st [] = st)
    ∧ (hash_single_buffer stdDigest (hasherNew cfgSha256Only) []).1
        = [("sha256",
            [0xe3, 0xb0, 0xc4, 0x42, 0x98, 0xfc, 0x1c, 0x14,
             0x9a, 0xfb, 0xf4, 0xc8, 0x99, 0x6f, 0xb9, 0x24,
             0x27, 0xae, 0x41, 0xe4, 0x64, 0x9b, 0x93, 0x4c,
             0xa4, 0x95, 0x99, 0x1b, 0x78, 0x52, 0xb8, 0x55])]
    ∧ (hash_single_buffer stdDigest (hasherNew cfgCrcOnly) []).1
        = [("crc32", [0, 0, 0, 0])] := by
  refine ⟨fun st => rfl, by decide, by decide⟩

/-- C2 is a code bug: `Hasher::finalize_hashes` resets the variable digests
via `finalize_reset` but only clones the crc32 companion before finalizing
it, leaving its accumulated state in place.  Hashing the one-byte file
`"a"` twice on the same hasher with `crc32` enabled yields
crc32("a") = e8b7be43 (little-endian bytes 43 be b7 e8) the first time and
crc32("aa") = 078a19d7 (little-endian bytes d7 19 8a 07) the second time:
the two records differ, contradicting the spec's reset-for-reuse clause. -/
theorem claim2_crc32_not_reset :
    (hashFileChunks stdDigest [[97]] (hasherNew cfgCrcOnly)).1
      = [("crc32", [0x43, 0xbe, 0xb7, 0xe8])]
    ∧ (hashFileChunks stdDigest [[97]]
        (hashFileChunks stdDigest [[97]] (hasherNew cfgCrcOnly)).2).1
      = [("crc32", [0xd7, 0x19, 0x8a, 0x07])]
    ∧ (hashFileChunks stdDigest [[97]] (hasherNew cfgCrcOnly)).1
      ≠ (hashFileChunks stdDigest [[97]]
          (hashFileChunks stdDigest [[97]] (hasherNew cfgCrcOnly)).2).1 := by
  refine ⟨by decide, by decide, by decide⟩

theorem rsplitDot_eq_none (e : FileName) (he : '.' ∉ e) : rsplitDot e = none := by
  induction e with
  | nil => rfl
  | cons c cs ih =>
    have hc : c ≠ '.' := fun h => he (h ▸ List.mem_cons_self c cs)
    have hcs : '.' ∉ cs := fun h => he (List.mem_cons_of_mem c h)
    simp [rsplitDot, ih hcs, hc]

theorem rsplitDot_append (s e : FileName) (he : '.' ∉ e) :
    rsplitDot (s ++ '.' :: e) = some (s, e) := by
  induction s with
  | nil => simp [rsplitDot, rsplitDot_eq_none e he]
  | cons c cs ih => simp [rsplitDot, ih]

theorem fileStemExt_append (s e : FileName) (hs : s ≠ []) (he : e ≠ [])
    (hd : '.' ∉ e) : fileStemExt (s ++ '.' :: e) = (s, some e) := by
  have hlen : (s ++ '.' :: e).length ≥ 3 := by
    cases s with
    | nil => exact absurd rfl hs
    | cons a as =>
      cases e with
      | nil => exact absurd rfl he
      | cons b bs => simp; omega
  have hne2 : s ++ '.' :: e ≠ ['.', '.'] := by
    intro h
    rw [h] at hlen
    simp at hlen
  unfold fileStemExt
  rw [if_neg hne2, rsplitDot_append s e hd]
  simp [hs]

theorem stemOf_of_no_ext (d : FileName) (h : extOf d = none) : stemOf d = d := by
  unfold stemOf
  unfold extOf at h
  unfold fileStemExt at h ⊢
  by_cases h2 : d = ['.', '.']
  · simp [h2]
  · rw [if_neg h2] at h ⊢
    cases hr : rsplitDot d with
    | none => simp
    | some pair =>
      rw [hr] at h
      by_cases h3 : pair.1 = []
      · simp [h3]
      · simp [h3] at h

/-- C9 counterexample: with `compress` set, an extensionless destination
such as `file` becomes `file..gz` (the code sets the extension to the
string `".gz"`, inserting a second dot), not `file.gz` as the claim's
"name with .gz appended" requires. -/
theorem claim9_counterexample :
    get_final_dest true false ['f', 'i', 'l', 'e']
        = ['f', 'i', 'l', 'e', '.', '.', 'g', 'z']
    ∧ get_final_dest true false ['f', 'i', 'l', 'e']
        ≠ ['f', 'i', 'l', 'e'] ++ ['.', 'g', 'z'] := by
  refine ⟨by decide, by decide⟩

/-- C9 amended: `get_final_dest` behaves as the claim states except for
destinations without an extension.  With `compress` and a destination whose
extension is not `gz`: when the destination has a (dot-free, non-empty)
extension, `.gz` is appended (`src.txt` → `src.txt.gz`); when it has no
extension, the result is the name with `..gz` appended (`file` → `file..gz`),
because the code sets the extension to `old_extension ++ ".gz"` and the
leading dot of `".gz"` is kept.  A destination already ending in a `gz`
extension is unchanged by `compress`.  With `decompress` (and `compress`
unset), a destination with extension `gz` loses that suffix, preserving any
inner extension such as `.tar`; others are unchanged.  With neither flag the
destination is unchanged. -/
theorem claim9_final_dest (s e d : FileName) :
    (s ≠ [] → e ≠ [] → '.' ∉ e → e ≠ ['g', 'z'] →
      get_final_dest true false (s ++ '.' :: e)
        = (s ++ '.' :: e) ++ ['.', 'g', 'z'])
    ∧ (extOf d = none →
        get_final_dest true false d = d ++ ['.', '.', 'g', 'z'])
    ∧ (is_compressed_path d = true → get_final_dest true false d = d)
    ∧ (is_compressed_path d = true → get_final_dest false true d = stemOf d)
    ∧ (s ≠ [] → get_final_dest false true (s ++ ['.', 'g', 'z']) = s)
    ∧ (is_compressed_path d = false → get_final_dest false true d = d)
    ∧ get_final_dest false false d = d := by
  refine ⟨?_, ?_, ?_, ?_, ?_, ?_, rfl⟩
  · intro hs he hd hgz
    have hfe := fileStemExt_append s e hs he hd
    have hcomp : is_compressed_path (s ++ '.' :: e) = false := by
      simp [is_compressed_path, extOf, hfe, hgz]
    unfold get_final_dest withExtension
    simp [hcomp, extOf, stemOf, hfe, he]
  · intro hext
    have hcomp : is_compressed_path d = false := by
      simp [is_compressed_path, hext]
    unfold get_final_dest withExtension
    simp [hcomp, hext, stemOf_of_no_ext d hext]
  · intro hcomp
    unfold get_final_dest
    simp [hcomp]
  · intro hcomp
    unfold get_final_dest
    have he : extOf d = some ['g', 'z'] := by
      simpa [is_compressed_path] using hcomp
    simp [hcomp, he, withExtension]
  · intro hs
    have hfe := fileStemExt_append s ['g', 'z'] hs (by simp) (by decide)
    have hcomp : is_compressed_path (s ++ '.' :: ['g', 'z']) = true := by
      simp [is_compressed_path, extOf, hfe]
    have he : extOf (s ++ '.' :: ['g', 'z']) = some ['g', 'z'] := by
      simp [extOf, hfe]
    unfold get_final_dest
    simp [hcomp, he, withExtension, stemOf, hfe]
  · intro hcomp
    unfold get_final_dest
    simp [hcomp]

/-- Witness for C9 amended: `src.txt` with `compress` becomes `src.txt.gz`,
and `a.tar.gz` with `decompress` becomes `a.tar`. -/
theorem claim9_witness :
    get_final_dest true false
        (['s', 'r', 'c'] ++ '.' :: ['t', 'x', 't'])
      = (['s', 'r', 'c'] ++ '.' :: ['t', 'x', 't']) ++ ['.', 'g', 'z']
    ∧ get_final_dest false true
        (['a', '.', 't', 'a', 'r'] ++ ['.', 'g', 'z'])
      = ['a', '.', 't', 'a', 'r'] :=
  ⟨(claim9_final_dest ['s', 'r', 'c'] ['t', 'x', 't'] []).1
      (by decide) (by decide) (by decide) (by decide),
   (claim9_final_dest ['a', '.', 't', 'a', 'r'] [] []).2.2.2.2.1 (by decide)⟩

/-- C6 counterexample: in the copy pipeline, `_hash_compressed_file` under
`hash_both` attributes BOTH records of the gz input `x.gz` to the original
path `x.gz`; the decompressed record does not get the `.gz`-stripped path
`x` that the claim requires for both pipelines. -/
theorem claim6_counterexample :
    (hash_compressed_file stdDigest {} ['x', '.', 'g', 'z'] [1] [2]).map
        Prod.fst
      = [['x', '.', 'g', 'z'], ['x', '.', 'g', 'z']]
    ∧ (['x', '.', 'g', 'z'] : FileName)
        ≠ withExtension ['x', '.', 'g', 'z'] []
    ∧ withExtension ['x', '.', 'g', 'z'] [] = ['x'] := by
  refine ⟨by decide, by decide, by decide⟩

/-- C6 amended: a gz input processed with `hash_both` yields exactly two
records in both pipelines; in the hash pipeline (`process_single_file`) the
compressed record keeps the input path and the decompressed record is
attributed to the path with its extension removed (for a `.gz` name, the
`.gz` suffix stripped); in the copy pipeline (`_hash_compressed_file`) both
records are attributed to the original source path. -/
theorem claim6_gz_both_attribution
    (F : String → List Nat → List Nat) (cfg : HashConfig) (p : FileName)
    (comp decomp : List Nat) :
    (process_single_file_gz_both F cfg p comp decomp).map Prod.fst
        = [p, withExtension p []]
    ∧ (process_single_file_gz_both F cfg p comp decomp).length = 2
    ∧ (hash_compressed_file F cfg p comp decomp).map Prod.fst = [p, p]
    ∧ (hash_compressed_file F cfg p comp decomp).length = 2
    ∧ (∀ s : FileName, s ≠ [] →
        withExtension (s ++ ['.', 'g', 'z']) [] = s) := by
  refine ⟨rfl, rfl, rfl, rfl, fun s hs => ?_⟩
  have hfe := fileStemExt_append s ['g', 'z'] hs (by simp) (by decide)
  simp [withExtension, stemOf, hfe]

/-- Witness for C6 amended at the input `x.gz`: the hash pipeline yields
paths `x.gz` and `x`. -/
theorem claim6_witness :
    (process_single_file_gz_both stdDigest {} ['x', '.', 'g', 'z'] [1] [2]).map
        Prod.fst
      = [['x', '.', 'g', 'z'], withExtension ['x', '.', 'g', 'z'] []]
    ∧ withExtension (['x'] ++ ['.', 'g', 'z']) [] = ['x'] :=
  ⟨(claim6_gz_both_attribution stdDigest {} ['x', '.', 'g', 'z'] [1] [2]).1,
   (claim6_gz_both_attribution stdDigest {} ['x', '.', 'g', 'z'] [1] [2]).2.2.2.2
      ['x'] (by decide)⟩

theorem find?_append_none {α : Type} (p : α → Bool) (r : List α) :
    ∀ l : List α, (∀ x ∈ l, p x = false) → (l ++ r).find? p = r.find? p := by
  intro l
  induction l with
  | nil => intro _; rfl
  | cons x xs ih =>
    intro hall
    have hx : p x = false := hall x (List.mem_cons_self x xs)
    rw [List.cons_append, List.find?_cons_of_neg _ (by simp [hx]),
      ih (fun y hy => hall y (List.mem_cons_of_mem x hy))]

theorem cols_filterMap_recover (size : Nat) :
    ∀ (cols : List String) (hs : List (String × List Nat)),
      List.Sublist (hs.map Prod.fst) cols → cols.Nodup → (∀ h ∈ hs, h.2 ≠ []) →
      ((cols.map (fun c =>
          (c, (hs.find? (fun h => h.1 = c)).map Prod.snd))).filterMap
        (fun c => match c.2 with
          | some bytes =>
            if bytes ≠ [] then some (c.1, (size, bytes)) else none
          | none => none))
        = hs.map (fun h => (h.1, (size, h.2))) := by
  intro cols
  induction cols with
  | nil =>
    intro hs hsub _ _
    have h1 : hs.map Prod.fst = [] := List.sublist_nil.mp hsub
    have h2 : hs = [] := by simpa using h1
    subst h2
    rfl
  | cons c cs ih =>
    intro hs hsub hnd hne
    rw [List.nodup_cons] at hnd
    obtain ⟨hcnotin, hndcs⟩ := hnd
    rw [List.map_cons, List.filterMap_cons]
    rcases List.sublist_cons_iff.mp hsub with hcase | ⟨r, hr, hrsub⟩
    · have hcnot : c ∉ hs.map Prod.fst := fun hmem => hcnotin (hcase.subset hmem)
      have hfind : hs.find? (fun h => h.1 = c) = none := by
        apply List.find?_eq_none.mpr
        intro x hx
        simp only [decide_eq_true_eq]
        intro heq
        exact hcnot (List.mem_map.mpr ⟨x, hx, heq⟩)
      rw [hfind]
      simpa using ih hs hcase hndcs hne
    · cases hs with
      | nil => simp at hr
      | cons h hs' =>
        rw [List.map_cons] at hr
        have hr1 : h.1 = c := (List.cons.injEq _ _ _ _ ▸ hr).1
        have hr2 : hs'.map Prod.fst = r := (List.cons.injEq _ _ _ _ ▸ hr).2
        have hfind : (h :: hs').find? (fun x => x.1 = c) = some h :=
          List.find?_cons_of_pos _ (by simp [hr1])
        rw [hfind]
        have hbytes : h.2 ≠ [] := hne h (List.mem_cons_self h hs')
        have hcong : cs.map (fun c' =>
              (c', ((h :: hs').find? (fun x => x.1 = c')).map Prod.snd))
            = cs.map (fun c' =>
              (c', (hs'.find? (fun x => x.1 = c')).map Prod.snd)) := by
          apply List.map_congr_left
          intro c' hc'
          have hne' : c' ≠ c := fun e => hcnotin (e ▸ hc')
          have hh : h.1 ≠ c' := fun e => hne' (hr1 ▸ e.symm)
          rw [List.find?_cons_of_neg _ (by simp [hh])]
        rw [hcong]
        have htail := ih hs' (hr2 ▸ hrsub) hndcs
          (fun x hx => hne x (List.mem_cons_of_mem h hx))
        simp only [Option.map_some', hbytes, ite_true, List.map_cons,
          if_pos, ne_eq, not_false_eq_true]
        rw [htail, hr1]

/-- C7 counterexample: `get_file_hashes` hard-codes `SELECT * FROM hashes`,
so under a configuration whose `table_name` is `t2` the inserted record is
unreachable: the lookup fails with a database error (no `hashes` table)
instead of returning the inserted `(algorithm, (size, bytes))` set. -/
theorem claim7_counterexample :
    insert_single_hash "t2" [("t2", [])] ['a'] 7 [("sha256", [1])]
        = .ok [("t2", [mkRow ['a'] 7 [("sha256", [1])]])]
    ∧ get_file_hashes [("t2", [mkRow ['a'] 7 [("sha256", [1])]])] ['a']
        = .error .dbFailure := by
  refine ⟨rfl, rfl⟩

/-- C7 amended: under a configuration whose `table_name` is `"hashes"` (the
name the lookup hard-codes), the store round-trips: inserting a record whose
path has no prior row and whose digests are non-empty and listed in schema
order, then looking the path up, returns exactly the inserted
`(algorithm, (size, bytes))` pairs (the first — here only — matching row's
non-null, non-empty digest columns with the stored size); a lookup with no
matching row fails with `NotFound`. -/
theorem claim7_roundtrip (rows0 : List DbRow) (p : FileName) (size : Nat)
    (hs : List (String × List Nat))
    (hmiss : ∀ r ∈ rows0, r.path ≠ p)
    (hsub : List.Sublist (hs.map Prod.fst) schemaCols)
    (hne : ∀ h ∈ hs, h.2 ≠ []) :
    insert_single_hash "hashes" [("hashes", rows0)] p size hs
        = .ok [("hashes", rows0 ++ [mkRow p size hs])]
    ∧ get_file_hashes [("hashes", rows0 ++ [mkRow p size hs])] p
        = .ok (hs.map (fun h => (h.1, (size, h.2))))
    ∧ get_file_hashes [("hashes", rows0)] p = .error .notFound := by
  have hnone : ∀ r ∈ rows0, (fun r : DbRow => decide (r.path = p)) r = false := by
    intro r hr
    simp [hmiss r hr]
  refine ⟨rfl, ?_, ?_⟩
  · have htab : List.find? (fun t : String × List DbRow => t.1 = "hashes")
        [("hashes", rows0 ++ [mkRow p size hs])]
        = some ("hashes", rows0 ++ [mkRow p size hs]) := rfl
    have hfind : List.find? (fun r : DbRow => r.path = p)
        (rows0 ++ [mkRow p size hs]) = some (mkRow p size hs) := by
      rw [find?_append_none _ _ rows0 hnone]
      exact List.find?_cons_of_pos _ (by simp [mkRow])
    simp only [get_file_hashes, htab, hfind]
    simp only [mkRow]
    rw [cols_filterMap_recover size schemaCols hs hsub (by decide) hne]
  · have htab : List.find? (fun t : String × List DbRow => t.1 = "hashes")
        [("hashes", rows0)] = some ("hashes", rows0) := rfl
    have hf : List.find? (fun r : DbRow => r.path = p) rows0 = none :=
      List.find?_eq_none.mpr (fun x hx => by simp [hnone x hx])
    simp only [get_file_hashes, htab, hf]

/-- Witness for C7 at a concrete store with one unrelated row and a record
holding `crc32` and `md5` digests. -/
theorem claim7_witness :
    insert_single_hash "hashes" [("hashes", [mkRow ['b'] 1 []])] ['a'] 3
        [("crc32", [9]), ("md5", [8])]
      = .ok [("hashes", [mkRow ['b'] 1 [],
          mkRow ['a'] 3 [("crc32", [9]), ("md5", [8])]])]
    ∧ get_file_hashes [("hashes", [mkRow ['b'] 1 [],
          mkRow ['a'] 3 [("crc32", [9]), ("md5", [8])]])] ['a']
      = .ok [("crc32", (3, [9])), ("md5", (3, [8]))]
    ∧ get_file_hashes [("hashes", [mkRow ['b'] 1 []])] ['a']
      = .error .notFound := by
  have h := claim7_roundtrip [mkRow ['b'] 1 []] ['a'] 3
    [("crc32", [9]), ("md5", [8])] (by decide) (by decide) (by decide)
  simpa using h
